import Mathlib

/-!
Shallow embedding of the metronome beat engine from `src/main.rs`.

The embedding covers the pieces the claims are about:
* `MetroState`, `Message`, `Beat` — the enums of the source
  (`MetroState::{Stopped, FirstBeat, Beat(u32)}`, `Message`, `Beat`).
* `Metronome` — the application state struct (channel senders are not
  stored; instead `Metronome.update` returns the values written to the
  beat-command queue and the volume queue during that step).
* `Metronome.update` — the `update` method.  The `unreachable!()` hit by
  `Message::Beat` in `MetroState::Stopped` is modelled as `none` (panic);
  every other arm returns `some`.  `Command::perform(async {}, |()| Beat)`
  is modelled by the `perform` field.
* `Metronome.subscription` — the subscription derivation; durations
  (`Duration::from_secs_f64`) are modelled as exact rationals.
* `tickClassify` / `runTicks` — the closure mapped over the subdivided
  timer: the `OFF_BEAT` compare-and-swap classification of each tick.
* `player_thread` — the audio worker: for each command received on the
  beat queue it first drains all volume updates pending on the volume
  queue, then plays the resolved sample amplified by the current volume.

`u32` fields are modelled as `Nat`; no claim exercises wrap-around
(`bar` is kept ≥ 2, matching the UI slider range 2..=16, everywhere the
subtraction `bar - 1` matters).  `f32` volumes are modelled as `Rat`:
no claim depends on rounding, only on which volume value is applied.
-/

namespace Metro

/-- Rust `enum MetroState { Stopped, FirstBeat, Beat(u32) }`. -/
inductive MetroState where
  | Stopped : MetroState
  | FirstBeat : MetroState
  | Beat : Nat → MetroState
deriving DecidableEq, Repr

/-- Rust `enum Beat { FirstBeat, OffBeat, Beat }` — the commands sent to the
audio worker (`FirstBeat` = accented click, `Beat` = plain click). -/
inductive Beat where
  | FirstBeat : Beat
  | OffBeat : Beat
  | Beat : Beat
deriving DecidableEq, Repr

/-- Rust `enum Message` — the messages handled by `Metronome::update`. -/
inductive Message where
  | Toggle : Message
  | Beat : Message
  | OffBeat : Message
  | BPMUpdate : Nat → Message
  | BarUpdate : Nat → Message
  | FirstBeats : Bool → Message
  | OffBeats : Bool → Message
  | SetVolume : Rat → Message
deriving DecidableEq, Repr

/-- Rust `struct Metronome` (the two channel `Sender`s are not part of the
model state; writes to them are reported by `Metronome.update`). -/
structure Metronome where
  bar : Nat
  bpm : Nat
  state : MetroState
  accentuate_first_beat : Bool
  off_beats : Bool
  volume : Rat
deriving DecidableEq, Repr

/-- Rust `struct MetronomeSettings`. -/
structure MetronomeSettings where
  bar : Nat
  bpm : Nat
  accentuate_first_beat : Bool
  off_beats : Bool
  volume : Rat
deriving DecidableEq, Repr

/-- Rust `impl Default for MetronomeSettings`. -/
def MetronomeSettings.default : MetronomeSettings :=
  { bar := 4, bpm := 100, accentuate_first_beat := true, off_beats := false,
    volume := 1 }

/-- The `Metronome` built by `Metronome::new` from its flags: state starts
`Stopped`, configuration copied from the settings. -/
def Metronome.new (flags : MetronomeSettings) : Metronome :=
  { state := .Stopped, bar := flags.bar, bpm := flags.bpm,
    accentuate_first_beat := flags.accentuate_first_beat,
    off_beats := flags.off_beats, volume := flags.volume }

/-- Result of one `update` step: the new state, the `Beat` commands sent
on `player_thread` (the beat-command queue), the values sent on `vol_tx`
(the volume queue), and the message synthesized via `Command::perform`. -/
structure Update where
  st : Metronome
  sent : List Beat
  volSent : List Rat
  perform : Option Message
deriving DecidableEq, Repr

/-- Method `Metronome::update`.  Here `none` models the `unreachable!()` panic
(`Message::Beat` while `Stopped`); every other arm is `some`. -/
def Metronome.update (m : Metronome) : Message → Option Update
  | .Toggle =>
      if m.state = .Stopped then
        some ⟨{ m with state := .Beat (m.bar - 1) }, [], [], some .Beat⟩
      else
        some ⟨{ m with state := .Stopped }, [], [], none⟩
  | .BPMUpdate bpm => some ⟨{ m with bpm := bpm }, [], [], none⟩
  | .BarUpdate bar => some ⟨{ m with bar := bar }, [], [], none⟩
  | .FirstBeats val => some ⟨{ m with accentuate_first_beat := val }, [], [], none⟩
  | .OffBeats val => some ⟨{ m with off_beats := val }, [], [], none⟩
  | .SetVolume vol => some ⟨{ m with volume := vol }, [], [vol], none⟩
  | .Beat =>
      match m.state with
      | .FirstBeat => some ⟨{ m with state := .Beat 1 }, [.Beat], [], none⟩
      | .Beat beat =>
          some ⟨{ m with state :=
                    if beat ≥ m.bar - 1 then .FirstBeat else .Beat (beat + 1) },
                [if m.accentuate_first_beat ∧ beat ≥ m.bar - 1 then .FirstBeat
                 else .Beat], [], none⟩
      | .Stopped => none
  | .OffBeat => some ⟨m, [.OffBeat], [], none⟩

/-- The bar position shown by `view`: `Beat(n) ↦ n`, `FirstBeat ↦ 0`,
`Stopped ↦` none. -/
def currentBeat : MetroState → Option Nat
  | .Beat n => some n
  | .FirstBeat => some 0
  | .Stopped => none

/-- The value of `Metronome::subscription`: either no subscription, or a
periodic timer with the given period in seconds.  `subdivided = true` is
the `off_beats` branch whose ticks run through the `OFF_BEAT`
compare-and-swap classifier; `subdivided = false` maps every tick to
`Message::Beat`. -/
inductive Subscription where
  | none : Subscription
  | every : Rat → Bool → Subscription
deriving DecidableEq, Repr

/-- Method `Metronome::subscription`.  The `f64` durations
`60. / bpm as f64 / 2.` and `60. / bpm as f64` are modelled as exact
rationals. -/
def Metronome.subscription (m : Metronome) : Subscription :=
  match m.state with
  | .Beat _ | .FirstBeat =>
      if m.off_beats then .every (60 / (m.bpm : Rat) / 2) true
      else .every (60 / (m.bpm : Rat)) false
  | .Stopped => .none

/-- The closure mapped over the subdivided timer (the `OFF_BEAT` flag):
`compare_exchange(true, false)` succeeds exactly when the flag is `true`
(tick is `OffBeat`, flag becomes `false`); on failure the flag is stored
back to `true` and the tick is `Beat`.  Returns the classified message
and the new flag value. -/
def tickClassify : Bool → Message × Bool
  | true => (.OffBeat, false)
  | false => (.Beat, true)

/-- Classify `n` consecutive ticks starting from the given flag value. -/
def runTicks (flag : Bool) : Nat → List Message
  | 0 => []
  | n + 1 =>
      (tickClassify flag).1 :: runTicks (tickClassify flag).2 n

/-- The three decoded click samples (`E_CLICK_SOURCE`,
`E_FLAT_CLICK_SOURCE`, `F_CLICK_SOURCE`). -/
inductive Sample where
  | EClick : Sample
  | EFlatClick : Sample
  | FClick : Sample
deriving DecidableEq, Repr

/-- The sample resolution `match` inside `player_thread`. -/
def sampleOf : Beat → Sample
  | .Beat => .EClick
  | .FirstBeat => .EFlatClick
  | .OffBeat => .FClick

/-- One sound submitted to `play_raw`: the resolved sample and the volume
it was amplified with (`.amplify(volume)`). -/
structure Played where
  sample : Sample
  amp : Rat
deriving DecidableEq, Repr

/-- The volume-drain loop `while let Ok(new_vol) = vol_rx.try_recv()`:
starting from the current volume, each pending update overwrites it; the
result is the last pending value (or the current volume if none are
pending). -/
def drainVol (volume : Rat) : List Rat → Rat
  | [] => volume
  | v :: rest => drainVol v rest

/-- Function `player_thread`.  Each input item is one successful `rx.recv()`: the
volume updates pending on `vol_rx` at that moment, paired with the
received `Beat` command.  For each item the worker drains the pending
volume updates and plays the resolved sample amplified by the resulting
volume. -/
def player_thread (volume : Rat) : List (List Rat × Beat) → List Played
  | [] => []
  | (pending, beat) :: rest =>
      ⟨sampleOf beat, drainVol volume pending⟩ ::
        player_thread (drainVol volume pending) rest

/-- Run a list of messages through `Metronome.update`, collecting the
commands sent on the beat queue; `none` if any step panics. -/
def runTrace (m : Metronome) : List Message → Option (Metronome × List Beat)
  | [] => some (m, [])
  | msg :: rest =>
      match m.update msg with
      | .none => none
      | .some u =>
          match runTrace u.st rest with
          | .none => none
          | .some (m', sent) => some (m', u.sent ++ sent)

/-- Iterate `update` on `Message.Beat` `k` times, keeping the state. -/
def runBeats (m : Metronome) : Nat → Option Metronome
  | 0 => some m
  | k + 1 =>
      match m.update .Beat with
      | .none => none
      | .some u => runBeats u.st k

/-- The states the machine cycles through while running with a fixed bar
length, indexed by the displayed bar position: position `0` is the
`FirstBeat` marker, position `j ≥ 1` is `Beat(j)`. -/
def barCyc (j : Nat) : MetroState :=
  if j = 0 then .FirstBeat else .Beat j

/-! ### Helper lemmas -/

/-- A run of `OffBeat` messages sends one `OffBeat` command each and never
changes the state. -/
lemma runTrace_replicate_offBeat (m : Metronome) (k : Nat) :
    runTrace m (List.replicate k .OffBeat) =
      some (m, List.replicate k .OffBeat) := by
  induction k with
  | zero => rfl
  | succ k ih =>
      simp [List.replicate_succ, runTrace, Metronome.update, ih,
        List.replicate_succ]

/-! ### Claim theorems -/

/-- C1: for every `BarLength` `n ≥ 2`, starting (Toggle) with
`AccentFirstBeat = true` moves `Stopped` to `Beat (n-1)` and synthesizes
one `Beat` message via `Command::perform` (no timer tick involved);
processing that `Beat` sends exactly one accented command
(`Beat.FirstBeat`) and leaves the machine in `FirstBeat`. -/
theorem start_accents_first_beat (m : Metronome) (n : Nat)
    (hn : 2 ≤ n) (hbar : m.bar = n) (hst : m.state = .Stopped)
    (hacc : m.accentuate_first_beat = true) :
    m.update .Toggle =
      some ⟨{ m with state := .Beat (n - 1) }, [], [], some .Beat⟩ ∧
    ({ m with state := MetroState.Beat (n - 1) } : Metronome).update .Beat =
      some ⟨{ m with state := .FirstBeat }, [.FirstBeat], [], none⟩ := by
  constructor
  · simp [Metronome.update, hst, hbar]
  · simp [Metronome.update, hbar, hacc]

/-- Witness for C1 at a concrete input: `bar = 4`, accent on. -/
theorem start_accents_first_beat_witness :
    ({ bar := 4, bpm := 100, state := .Stopped, accentuate_first_beat := true,
       off_beats := false, volume := 1 } : Metronome).update .Toggle =
      some ⟨{ bar := 4, bpm := 100, state := .Beat 3,
              accentuate_first_beat := true, off_beats := false,
              volume := 1 }, [], [], some .Beat⟩ ∧
    ({ bar := 4, bpm := 100, state := .Beat 3, accentuate_first_beat := true,
       off_beats := false, volume := 1 } : Metronome).update .Beat =
      some ⟨{ bar := 4, bpm := 100, state := .FirstBeat,
              accentuate_first_beat := true, off_beats := false,
              volume := 1 }, [.FirstBeat], [], none⟩ :=
  start_accents_first_beat
    { bar := 4, bpm := 100, state := .Stopped, accentuate_first_beat := true,
      off_beats := false, volume := 1 } 4 (by decide) rfl rfl rfl

/-- C7: an `OffBeat` message in a running state sends exactly one
`OffBeat` command and leaves the whole state (bar position and the
`FirstBeat`/`Beat` classification included) unchanged; any number `k` of
consecutive `OffBeat` messages likewise leaves the state unchanged,
sending one `OffBeat` command each. -/
theorem offbeat_non_interference (m : Metronome) (k : Nat)
    (hrun : m.state ≠ .Stopped) :
    m.update .OffBeat = some ⟨m, [.OffBeat], [], none⟩ ∧
    runTrace m (List.replicate k .OffBeat) =
      some (m, List.replicate k .OffBeat) :=
  ⟨rfl, runTrace_replicate_offBeat m k⟩

/-- Witness for C7 at a concrete running state, `k = 3`. -/
theorem offbeat_non_interference_witness :
    ({ bar := 4, bpm := 100, state := .Beat 2, accentuate_first_beat := true,
       off_beats := true, volume := 1 } : Metronome).update .OffBeat =
      some ⟨{ bar := 4, bpm := 100, state := .Beat 2,
              accentuate_first_beat := true, off_beats := true,
              volume := 1 }, [.OffBeat], [], none⟩ ∧
    runTrace
      { bar := 4, bpm := 100, state := .Beat 2, accentuate_first_beat := true,
        off_beats := true, volume := 1 } (List.replicate 3 .OffBeat) =
      some ({ bar := 4, bpm := 100, state := .Beat 2,
              accentuate_first_beat := true, off_beats := true, volume := 1 },
            List.replicate 3 .OffBeat) :=
  offbeat_non_interference _ 3 (by decide)

/-- C10: tick messages arriving in `Stopped` are handled asymmetrically:
a `Beat` message hits `unreachable!()` (modelled `none`), while an
`OffBeat` message is accepted — it sends one `OffBeat` command on the
audio queue and leaves the state `Stopped`. -/
theorem stopped_tick_asymmetry (m : Metronome) (hst : m.state = .Stopped) :
    m.update .Beat = none ∧
    m.update .OffBeat = some ⟨m, [.OffBeat], [], none⟩ := by
  constructor
  · simp [Metronome.update, hst]
  · rfl

/-- Witness for C10 at the freshly constructed (stopped) metronome. -/
theorem stopped_tick_asymmetry_witness :
    (Metronome.new MetronomeSettings.default).update .Beat = none ∧
    (Metronome.new MetronomeSettings.default).update .OffBeat =
      some ⟨Metronome.new MetronomeSettings.default, [.OffBeat], [], none⟩ :=
  stopped_tick_asymmetry (Metronome.new MetronomeSettings.default) rfl

/-- C8: the timer subscription exists iff the machine is not `Stopped`;
while running, its period is `60/bpm` seconds without subdivision and
`30/bpm` seconds (half the beat interval, with the compare-and-swap
classifier attached) with subdivision. -/
theorem subscription_period (m : Metronome) :
    (m.subscription = .none ↔ m.state = .Stopped) ∧
    (m.state ≠ .Stopped →
      m.subscription =
        if m.off_beats then .every (30 / (m.bpm : Rat)) true
        else .every (60 / (m.bpm : Rat)) false) := by
  have hdiv : (60 : Rat) / (m.bpm : Rat) / 2 = 30 / (m.bpm : Rat) := by
    rw [div_div, mul_comm, ← div_div]
    norm_num
  cases hst : m.state <;> cases hob : m.off_beats <;>
    simp [Metronome.subscription, hst, hob, hdiv]

/-- Witness for C8: a running, subdivided metronome at 120 BPM has a
subscription of period `30/120` seconds. -/
theorem subscription_period_witness :
    ({ bar := 4, bpm := 120, state := .FirstBeat,
       accentuate_first_beat := true, off_beats := true,
       volume := 1 } : Metronome).subscription =
      .every (30 / (120 : Rat)) true := by
  have h := (subscription_period
    { bar := 4, bpm := 120, state := .FirstBeat,
      accentuate_first_beat := true, off_beats := true,
      volume := 1 }).2 (by decide)
  simpa using h

/-- Alternating tick classification, both flag phases at once: from flag
`true` the classified ticks are `OffBeat` at even indices and `Beat` at
odd ones; from flag `false` the phases swap. -/
lemma runTicks_ofFn (n : Nat) :
    runTicks true n =
      List.ofFn (fun i : Fin n =>
        if i.val % 2 = 0 then Message.OffBeat else Message.Beat) ∧
    runTicks false n =
      List.ofFn (fun i : Fin n =>
        if i.val % 2 = 0 then Message.Beat else Message.OffBeat) := by
  induction n with
  | zero => exact ⟨rfl, rfl⟩
  | succ n ih =>
      constructor
      · show Message.OffBeat :: runTicks false n = _
        rw [List.ofFn_succ, ih.2]
        congr 1
        apply congrArg
        funext i
        have h2 : (i.val + 1) % 2 = 0 ↔ ¬ i.val % 2 = 0 := by omega
        by_cases h : i.val % 2 = 0 <;> simp [Fin.val_succ, h, h2]
      · show Message.Beat :: runTicks true n = _
        rw [List.ofFn_succ, ih.1]
        congr 1
        apply congrArg
        funext i
        have h2 : (i.val + 1) % 2 = 0 ↔ ¬ i.val % 2 = 0 := by omega
        by_cases h : i.val % 2 = 0 <;> simp [Fin.val_succ, h, h2]

/-- C4: with the alternation flag initially `true`, classifying `N`
consecutive ticks (`N` even) yields exactly the alternating sequence
`OffBeat, Beat, OffBeat, Beat, …` of length `N`. -/
theorem alternation_law (N : Nat) (hN : Even N) :
    runTicks true N =
      List.ofFn (fun i : Fin N =>
        if i.val % 2 = 0 then Message.OffBeat else Message.Beat) :=
  (runTicks_ofFn N).1

/-- Witness for C4 at `N = 4`. -/
theorem alternation_law_witness :
    runTicks true 4 =
      List.ofFn (fun i : Fin 4 =>
        if i.val % 2 = 0 then Message.OffBeat else Message.Beat) :=
  alternation_law 4 (by decide)

/-- With the accent flag off, a single update step never sends the
accented command. -/
lemma update_no_accent_step (m : Metronome) (msg : Message) (u : Update)
    (hacc : m.accentuate_first_beat = false)
    (h : m.update msg = some u) :
    Beat.FirstBeat ∉ u.sent := by
  cases msg <;>
    simp only [Metronome.update] at h
  case Toggle =>
    split at h <;> (cases h; simp)
  case Beat =>
    cases hst : m.state <;> rw [hst] at h
    · cases h
    · cases h; simp
    · cases h
      simp [hacc]
  all_goals (cases h; simp)

/-- An update step whose message is not `FirstBeats _` leaves the accent
flag unchanged. -/
lemma update_accent_preserved (m : Metronome) (msg : Message) (u : Update)
    (hmsg : ∀ v, msg ≠ .FirstBeats v)
    (h : m.update msg = some u) :
    u.st.accentuate_first_beat = m.accentuate_first_beat := by
  cases msg <;>
    simp only [Metronome.update] at h
  case Toggle =>
    split at h <;> (cases h; rfl)
  case Beat =>
    cases hst : m.state <;> rw [hst] at h
    · cases h
    · cases h; rfl
    · cases h; rfl
  case FirstBeats v => exact absurd rfl (hmsg v)
  all_goals (cases h; rfl)

/-- With the accent flag off and no `FirstBeats` message in the trace, no
step of the trace ever sends the accented command. -/
lemma runTrace_no_accent (msgs : List Message) :
    ∀ (m : Metronome) (m' : Metronome) (sent : List Beat),
      m.accentuate_first_beat = false →
      (∀ v, Message.FirstBeats v ∉ msgs) →
      runTrace m msgs = some (m', sent) →
      Beat.FirstBeat ∉ sent := by
  induction msgs with
  | nil =>
      intro m m' sent _ _ h
      cases h
      simp
  | cons msg rest ih =>
      intro m m' sent hacc hmsg h
      simp only [runTrace] at h
      split at h
      · cases h
      · rename_i u hu
        split at h
        · cases h
        · rename_i m2 sent2 hrest
          cases h
          have hnotfb : ∀ v, msg ≠ .FirstBeats v := by
            intro v hv
            exact hmsg v (by simp [hv])
          have hacc' : u.st.accentuate_first_beat = false :=
            (update_accent_preserved m msg u hnotfb hu).trans hacc
          have h1 := update_no_accent_step m msg u hacc hu
          have h2 := ih u.st _ sent2 hacc'
            (fun v hv => hmsg v (by simp [hv])) hrest
          simp [h1, h2]

/-- C3: in a running state with the accent flag on, a `Beat` event sends
the accented command exactly when the state is `Beat p` with
`p ≥ bar - 1`, and the plain command otherwise (also from `FirstBeat`);
with the accent flag off (and no `FirstBeats` reconfiguration), no trace
of events ever sends the accented command. -/
theorem accent_correctness :
    (∀ (m : Metronome) (u : Update), m.accentuate_first_beat = true →
      m.update .Beat = some u →
      ((u.sent = [Beat.FirstBeat] ↔
          ∃ p, m.state = .Beat p ∧ m.bar - 1 ≤ p) ∧
        (u.sent = [Beat.FirstBeat] ∨ u.sent = [Beat.Beat]))) ∧
    (∀ (msgs : List Message) (m m' : Metronome) (sent : List Beat),
      m.accentuate_first_beat = false →
      (∀ v, Message.FirstBeats v ∉ msgs) →
      runTrace m msgs = some (m', sent) →
      Beat.FirstBeat ∉ sent) := by
  constructor
  · intro m u hacc h
    simp only [Metronome.update] at h
    cases hst : m.state <;> rw [hst] at h
    · cases h
    · cases h
      simp [hst]
    case Beat p =>
      cases h
      by_cases hp : m.bar - 1 ≤ p <;> simp [hacc, hst, hp] <;> omega
  · exact fun msgs m m' sent => runTrace_no_accent msgs m m' sent

/-- Witness for C3: concrete accented wrap (`Beat 3`, `bar = 4`) and a
concrete accent-off trace. -/
theorem accent_correctness_witness :
    (({ bar := 4, bpm := 100, state := .Beat 3,
        accentuate_first_beat := true, off_beats := false,
        volume := 1 } : Metronome).update .Beat =
        some ⟨{ bar := 4, bpm := 100, state := .FirstBeat,
                accentuate_first_beat := true, off_beats := false,
                volume := 1 }, [.FirstBeat], [], none⟩) ∧
    ([Beat.FirstBeat] = [Beat.FirstBeat] ↔
      ∃ p, (MetroState.Beat 3 : MetroState) = .Beat p ∧ 4 - 1 ≤ p) ∧
    Beat.FirstBeat ∉ ([.Beat, .Beat, .OffBeat] : List Beat) := by
  refine ⟨by decide, ?_, ?_⟩
  · have h := (accent_correctness.1
      { bar := 4, bpm := 100, state := .Beat 3,
        accentuate_first_beat := true, off_beats := false, volume := 1 }
      ⟨{ bar := 4, bpm := 100, state := .FirstBeat,
         accentuate_first_beat := true, off_beats := false, volume := 1 },
        [.FirstBeat], [], none⟩ rfl (by decide)).1
    simpa using h
  · exact accent_correctness.2 [.Beat, .Beat, .OffBeat]
      { bar := 4, bpm := 100, state := .Beat 0,
        accentuate_first_beat := false, off_beats := false, volume := 1 }
      { bar := 4, bpm := 100, state := .Beat 2,
        accentuate_first_beat := false, off_beats := false, volume := 1 }
      [.Beat, .Beat, .OffBeat] rfl (by intro v; simp) (by decide)

/-- One `Beat` event from cycle position `j` moves the machine to cycle
position `(j + 1) % bar`, leaving every other field unchanged. -/
lemma update_beat_barCyc (m : Metronome) (j : Nat)
    (hbar : 2 ≤ m.bar) (hj : j < m.bar) (hst : m.state = barCyc j) :
    ∃ cmds, m.update .Beat =
      some ⟨{ m with state := barCyc ((j + 1) % m.bar) }, cmds, [], none⟩ := by
  by_cases h0 : j = 0
  · subst h0
    refine ⟨[.Beat], ?_⟩
    have h1 : (1 : Nat) % m.bar = 1 := Nat.mod_eq_of_lt (by omega)
    simp only [barCyc] at hst
    simp [Metronome.update, hst, barCyc, h1]
  · by_cases hlast : m.bar - 1 ≤ j
    · have hj' : j = m.bar - 1 := by omega
      have h0' : (j + 1) % m.bar = 0 := by
        rw [hj']
        have : m.bar - 1 + 1 = m.bar := by omega
        rw [this, Nat.mod_self]
      refine ⟨[if m.accentuate_first_beat ∧ m.bar - 1 ≤ j then .FirstBeat
               else .Beat], ?_⟩
      simp only [barCyc, if_neg h0] at hst
      simp [Metronome.update, hst, hlast, h0', barCyc]
    · have hsucc : (j + 1) % m.bar = j + 1 := Nat.mod_eq_of_lt (by omega)
      refine ⟨[.Beat], ?_⟩
      simp only [barCyc, if_neg h0] at hst
      simp [Metronome.update, hst, hlast, hsucc, barCyc]

/-- Running `k` `Beat` events from cycle position `j` lands at cycle
position `(j + k) % bar`. -/
lemma runBeats_barCyc (k : Nat) :
    ∀ (m : Metronome) (j : Nat), 2 ≤ m.bar → j < m.bar →
      m.state = barCyc j →
      runBeats m k = some { m with state := barCyc ((j + k) % m.bar) } := by
  induction k with
  | zero =>
      intro m j hbar hj hst
      have : (j + 0) % m.bar = j := by
        rw [Nat.add_zero]
        exact Nat.mod_eq_of_lt hj
      rw [runBeats, this, ← hst]
  | succ k ih =>
      intro m j hbar hj hst
      obtain ⟨cmds, hu⟩ := update_beat_barCyc m j hbar hj hst
      simp only [runBeats, hu]
      have hlt : (j + 1) % m.bar < m.bar := Nat.mod_lt _ (by omega)
      have := ih { m with state := barCyc ((j + 1) % m.bar) }
        ((j + 1) % m.bar) hbar hlt rfl
      rw [this]
      have hmod : ((j + 1) % m.bar + k) % m.bar = (j + (k + 1)) % m.bar := by
        rw [Nat.mod_add_mod]
        congr 1
        omega
      simp [hmod]

/-- C2: with `bar = n ≥ 2` fixed, after `k + 1` consecutive `Beat` events
from `Beat (n-1)` the machine is at cycle position `k % n`; that position
is the `FirstBeat` marker exactly when `k % n = 0` (once per `n`
events), and the displayed bar position after the `(k+1)`-st event is
`k % n`, so it cycles `0, 1, …, n-1, 0, 1, …` forever. -/
theorem bar_wrap_cycle (n k : Nat) (m : Metronome) (hn : 2 ≤ n)
    (hbar : m.bar = n) (hst : m.state = .Beat (n - 1)) :
    runBeats m (k + 1) = some { m with state := barCyc (k % n) } ∧
    (barCyc (k % n) = .FirstBeat ↔ k % n = 0) ∧
    currentBeat (barCyc (k % n)) = some (k % n) := by
  have hcyc : m.state = barCyc (n - 1) := by
    rw [hst, barCyc, if_neg (by omega)]
  have h := runBeats_barCyc (k + 1) m (n - 1) (by omega) (by omega) hcyc
  have hmod : (n - 1 + (k + 1)) % m.bar = k % n := by
    rw [hbar]
    have : n - 1 + (k + 1) = k + n := by omega
    rw [this, Nat.add_mod_right]
  rw [hmod] at h
  refine ⟨h, ?_, ?_⟩
  · unfold barCyc
    by_cases h0 : k % n = 0 <;> simp [h0]
  · unfold barCyc
    by_cases h0 : k % n = 0 <;> simp [h0, currentBeat]

/-- Witness for C2: `n = 3`, `k = 4`, concrete metronome. -/
theorem bar_wrap_cycle_witness :
    runBeats
        { bar := 3, bpm := 100, state := .Beat 2,
          accentuate_first_beat := true, off_beats := false, volume := 1 }
        5 =
      some { bar := 3, bpm := 100, state := barCyc (4 % 3),
             accentuate_first_beat := true, off_beats := false,
             volume := 1 } ∧
    (barCyc (4 % 3) = .FirstBeat ↔ 4 % 3 = 0) ∧
    currentBeat (barCyc (4 % 3)) = some (4 % 3) :=
  bar_wrap_cycle 3 4
    { bar := 3, bpm := 100, state := .Beat 2,
      accentuate_first_beat := true, off_beats := false, volume := 1 }
    (by decide) rfl rfl

/-- C5 counterexample: from the freshly constructed metronome, `Toggle`
(start, `bar = 4`, so state `Beat 3`) followed by `BarUpdate 2` is a
reachable configuration whose in-flight position `3` is not below the
new bar length `2` — `BarUpdate` does not clamp the position. -/
theorem position_lt_bar_counterexample :
    runTrace (Metronome.new MetronomeSettings.default)
        [.Toggle, .BarUpdate 2] =
      some ({ bar := 2, bpm := 100, state := .Beat 3,
              accentuate_first_beat := true, off_beats := false,
              volume := 1 }, []) ∧
    ¬ (3 : Nat) < 2 := by
  constructor
  · rfl
  · decide

/-- In a step whose message is not `BarUpdate`, the bar length is
unchanged and the position-below-bar invariant is preserved (for
`bar ≥ 2`). -/
lemma update_preserves_pos_inv (m : Metronome) (msg : Message) (u : Update)
    (hbar : 2 ≤ m.bar) (hmsg : ∀ b, msg ≠ .BarUpdate b)
    (hinv : ∀ p, m.state = .Beat p → p < m.bar)
    (h : m.update msg = some u) :
    u.st.bar = m.bar ∧ ∀ p, u.st.state = .Beat p → p < u.st.bar := by
  cases msg <;>
    simp only [Metronome.update] at h
  case Toggle =>
    split at h <;> cases h
    · exact ⟨rfl, by
        intro p hp
        cases hp
        exact (show m.bar - 1 < m.bar by omega)⟩
    · exact ⟨rfl, by intro p hp; cases hp⟩
  case Beat =>
    cases hst : m.state <;> rw [hst] at h
    · cases h
    · cases h
      refine ⟨rfl, ?_⟩
      intro p hp
      cases hp
      exact (show 1 < m.bar by omega)
    case Beat q =>
      cases h
      refine ⟨rfl, ?_⟩
      intro p hp
      by_cases hq : m.bar - 1 ≤ q <;> simp [hq] at hp
      · cases hp
        exact (show q + 1 < m.bar by omega)
  case BarUpdate b => exact absurd rfl (hmsg b)
  all_goals
    (cases h; exact ⟨rfl, fun p hp => hinv p hp⟩)

/-- C5 amended: over any trace containing no `BarUpdate`, the bar length
is constant and every reachable `Beat p` state keeps `p < bar`. -/
theorem position_lt_bar_no_barupdate (msgs : List Message) :
    ∀ (m m' : Metronome) (sent : List Beat), 2 ≤ m.bar →
      (∀ b, Message.BarUpdate b ∉ msgs) →
      (∀ p, m.state = .Beat p → p < m.bar) →
      runTrace m msgs = some (m', sent) →
      m'.bar = m.bar ∧ ∀ p, m'.state = .Beat p → p < m'.bar := by
  induction msgs with
  | nil =>
      intro m m' sent hbar _ hinv h
      cases h
      exact ⟨rfl, hinv⟩
  | cons msg rest ih =>
      intro m m' sent hbar hmsg hinv h
      simp only [runTrace] at h
      split at h
      · cases h
      · rename_i u hu
        split at h
        · cases h
        · rename_i m2 sent2 hrest
          cases h
          have hnotbar : ∀ b, msg ≠ .BarUpdate b := by
            intro b hb
            exact hmsg b (by simp [hb])
          obtain ⟨hb, hi⟩ :=
            update_preserves_pos_inv m msg u hbar hnotbar hinv hu
          have := ih u.st _ sent2 (hb ▸ hbar)
            (fun b hbm => hmsg b (by simp [hbm])) hi hrest
          exact ⟨this.1.trans hb, this.2⟩

/-- Witness for C5 amended: a concrete `BarUpdate`-free trace from the
fresh metronome. -/
theorem position_lt_bar_no_barupdate_witness :
    ((Metronome.new MetronomeSettings.default).bar = 4 ∧
      runTrace (Metronome.new MetronomeSettings.default) [.Toggle, .Beat] =
        some ({ bar := 4, bpm := 100, state := .FirstBeat,
                accentuate_first_beat := true, off_beats := false,
                volume := 1 }, [.FirstBeat])) ∧
    ({ bar := 4, bpm := 100, state := .FirstBeat,
       accentuate_first_beat := true, off_beats := false,
       volume := 1 } : Metronome).bar =
        (Metronome.new MetronomeSettings.default).bar ∧
    (∀ p, ({ bar := 4, bpm := 100, state := .FirstBeat,
             accentuate_first_beat := true, off_beats := false,
             volume := 1 } : Metronome).state = .Beat p →
      p < ({ bar := 4, bpm := 100, state := .FirstBeat,
             accentuate_first_beat := true, off_beats := false,
             volume := 1 } : Metronome).bar) := by
  refine ⟨⟨rfl, rfl⟩, ?_⟩
  exact position_lt_bar_no_barupdate [.Toggle, .Beat]
    (Metronome.new MetronomeSettings.default) _ [.FirstBeat]
    (by decide) (by intro b; simp) (by intro p hp; cases hp) rfl

/-- C6 counterexample: the only stop/start control is `Toggle`, and a
`Toggle` delivered while `Stopped` is not a no-op — it starts the
metronome (state `Beat (bar-1)`) and synthesizes a `Beat` message. -/
theorem stop_idempotence_counterexample :
    (Metronome.new MetronomeSettings.default).update .Toggle =
      some ⟨{ bar := 4, bpm := 100, state := .Beat 3,
              accentuate_first_beat := true, off_beats := false,
              volume := 1 }, [], [], some .Beat⟩ ∧
    (MetroState.Beat 3 ≠ .Stopped) := by
  constructor
  · rfl
  · decide

/-- C6 amended: a stop request (`Toggle` in a running state) emits no
command and writes nothing to either queue; the state becomes `Stopped`.
(`Toggle` while already `Stopped` is a start, not a stop, so a stop
request never happens in `Stopped`.) -/
theorem stop_emits_nothing (m : Metronome) (hrun : m.state ≠ .Stopped) :
    m.update .Toggle = some ⟨{ m with state := .Stopped }, [], [], none⟩ := by
  simp [Metronome.update, hrun]

/-- Witness for C6 amended at a concrete running state. -/
theorem stop_emits_nothing_witness :
    ({ bar := 4, bpm := 100, state := .FirstBeat,
       accentuate_first_beat := true, off_beats := false,
       volume := 1 } : Metronome).update .Toggle =
      some ⟨{ bar := 4, bpm := 100, state := .Stopped,
              accentuate_first_beat := true, off_beats := false,
              volume := 1 }, [], [], none⟩ :=
  stop_emits_nothing
    { bar := 4, bpm := 100, state := .FirstBeat,
      accentuate_first_beat := true, off_beats := false, volume := 1 }
    (by decide)

/-- Draining a concatenation of pending volume lists drains them in
order. -/
lemma drainVol_append (v : Rat) (l1 l2 : List Rat) :
    drainVol v (l1 ++ l2) = drainVol (drainVol v l1) l2 := by
  induction l1 generalizing v with
  | nil => rfl
  | cons x l1 ih => simp [drainVol, ih]

/-- The worker plays the `i`-th received command amplified by the last
volume value among the initial volume and every update pending up to and
including that command's drain. -/
lemma player_thread_getElem (input : List (List Rat × Beat)) :
    ∀ (v : Rat) (i : Nat) (pending : List Rat) (b : Beat),
      input[i]? = some (pending, b) →
      (player_thread v input)[i]? =
        some ⟨sampleOf b,
          drainVol v (((input.take (i + 1)).map Prod.fst).flatten)⟩ := by
  induction input with
  | nil => intro v i pending b h; cases h
  | cons x rest ih =>
      intro v i pending b h
      obtain ⟨p0, b0⟩ := x
      cases i with
      | zero =>
          simp only [List.getElem?_cons_zero, Option.some.injEq] at h
          cases h
          simp [player_thread, drainVol_append]
      | succ i =>
          simp only [List.getElem?_cons_succ] at h
          simp only [player_thread, List.getElem?_cons_succ,
            List.take_succ_cons, List.map_cons, List.flatten,
            drainVol_append]
          exact ih (drainVol v p0) i pending b h

/-- Later input never changes what was already played. -/
lemma player_thread_append (xs ys : List (List Rat × Beat)) :
    ∀ v : Rat,
      player_thread v (xs ++ ys) =
        player_thread v xs ++
          player_thread (drainVol v ((xs.map Prod.fst).flatten)) ys := by
  induction xs with
  | nil => intro v; simp [player_thread, drainVol]
  | cons x rest ih =>
      intro v
      obtain ⟨p0, b0⟩ := x
      simp [player_thread, ih, drainVol_append]

/-- C9: the audio worker drains every pending volume update before each
play, so the `i`-th played sound is the `i`-th received command's sample
amplified by the most recently sent volume value (the last pending
update so far, or the initial volume); and playing is prefix-stable —
commands and volume updates arriving later never change a sound already
played (no retroactive amplitude change). -/
theorem volume_application (v : Rat) (input : List (List Rat × Beat)) :
    (∀ (i : Nat) (pending : List Rat) (b : Beat),
      input[i]? = some (pending, b) →
      (player_thread v input)[i]? =
        some ⟨sampleOf b,
          drainVol v (((input.take (i + 1)).map Prod.fst).flatten)⟩) ∧
    (∀ ys, player_thread v (input ++ ys) =
      player_thread v input ++
        player_thread (drainVol v ((input.map Prod.fst).flatten)) ys) :=
  ⟨fun i pending b h => player_thread_getElem input v i pending b h,
   fun ys => player_thread_append input ys v⟩

/-- Witness for C9: initial volume `1`, three commands with updates `2`
then `3, 4` pending; the third sound plays at volume `4`, and appending
more input preserves the already-played prefix. -/
theorem volume_application_witness :
    (player_thread 1
        [([], .Beat), ([2], .FirstBeat), ([3, 4], .OffBeat)])[2]? =
      some ⟨Sample.FClick, 4⟩ ∧
    player_thread 1 ([([], Beat.Beat)] ++ [([5], Beat.Beat)]) =
      player_thread 1 [([], Beat.Beat)] ++ player_thread 1 [([5], Beat.Beat)] := by
  constructor
  · have h := (volume_application 1
      [([], .Beat), ([2], .FirstBeat), ([3, 4], .OffBeat)]).1
      2 [3, 4] .OffBeat rfl
    simpa [drainVol] using h
  · have h := (volume_application 1 [([], Beat.Beat)]).2 [([5], Beat.Beat)]
    simpa [drainVol] using h

end Metro
